import Mathlib

/-!
Verification of the `next` job-ledger CLI (Go) against its natural-language
specification.  The embedding models the SQLite table `queue` as a list of
rows and each CLI command's SQL as a pure function on that list.

Conventions of the embedding:
* `path_hash` / `content_hash` are the hex digest strings the Go code stores;
  SQLite compares them as TEXT, which is modelled by the `<` order on
  `String` (lexicographic on the underlying character list).
* Timestamps (`done_at`, `next_at`) are modelled as `Option Int` instants;
  `none` is SQL NULL.  The claim and status commands only ever test
  NULL-ness of `done_at`, and the done command writes fresh instants.
* SQLite's `DATETIME('now', modifier)` is an external collaborator and is
  passed in as a function parameter `sqlDateTime : String → Option Int`
  (`none` models the NULL that SQLite yields for an unrecognized modifier).
-/

/-- A row of the `queue` table (one WorkItem).  Fields mirror the schema:
`path, path_hash, content_hash, treatment, done_at, result, next_at`. -/
structure Row where
  path : String
  path_hash : String
  content_hash : String
  treatment : String
  done_at : Option Int
  result : Option String
  next_at : Option Int
deriving DecidableEq

/-- The `queue` table: a finite multiset of rows, modelled as a list in
arbitrary (storage) order. -/
abbrev Store := List Row

/-- The `(path_hash, treatment)` primary-key test used by the UPSERT's
`ON CONFLICT(path_hash, treatment)` clause and by `done`'s WHERE clause. -/
def keyMatches (r : Row) (ph t : String) : Bool :=
  r.path_hash == ph && r.treatment == t

/-- The PRIMARY KEY (path_hash, treatment) uniqueness invariant of the
`queue` table. -/
def KeyUnique (q : Store) : Prop :=
  q.Pairwise fun r s => ¬(r.path_hash = s.path_hash ∧ r.treatment = s.treatment)

/-- WHERE clause of the claim query without the cursor condition:
`treatment = ? AND done_at IS NULL`. -/
def pendingPred (t : String) (r : Row) : Bool :=
  r.treatment == t && r.done_at.isNone

/-- Full WHERE clause of claimCmd's query:
`treatment = ? AND done_at IS NULL AND path_hash > ?`. -/
def claimPred (t cursor : String) (r : Row) : Bool :=
  pendingPred t r && decide (cursor < r.path_hash)

/-- `ORDER BY path_hash` comparator: non-strict hash order as a Bool
relation (total and transitive because String `<` is a linear order). -/
def hashLe (r s : Row) : Bool :=
  !decide (s.path_hash < r.path_hash)

/-- claimCmd's query (src/main.go):
`SELECT ... FROM queue WHERE treatment = ? AND done_at IS NULL AND
path_hash > ? ORDER BY path_hash LIMIT ?`. -/
def claimQuery (q : Store) (t cursor : String) (n : Nat) : List Row :=
  ((q.filter (claimPred t cursor)).mergeSort hashLe).take n

/-- Strict hash order on rows (the order in which a claim batch is
returned when hashes are distinct). -/
def rowLt (r s : Row) : Prop :=
  r.path_hash < s.path_hash

instance : IsAntisymm Row rowLt :=
  ⟨fun _ _ h h2 => absurd h2 (lt_asymm h)⟩

/-- Lower-case hexadecimal rendering of a `Nat`, zero-padded to 16 digits
(the width of the leading 64 bits of a sha256 hex digest). -/
def hex16 (n : Nat) : String :=
  ⟨List.replicate (16 - (Nat.toDigits 16 n).length) '0' ++ Nat.toDigits 16 n⟩

/-- The 48 zero characters that pad a 16-hex-digit shard bound back to the
full 64-character digest width. -/
def zeros48 : String :=
  ⟨List.replicate 48 '0'⟩

/-- Modelled from the spec: `calculateShardRange` is referenced only by the
repository's tests; no implementation exists under src/.  Spec §4.4: for
`totalShards = T` and shard `i`, the range is
`[floor(i·2^64/T), floor((i+1)·2^64/T))`, except the last shard whose upper
bound is the inclusive maximum `2^64 - 1`; bounds are rendered as the
16-hex-digit 64-bit prefix zero-padded to the full 64-character width. -/
def calculateShardRange (i T : Nat) : String × String :=
  (hex16 (i * 2 ^ 64 / T) ++ zeros48,
    if i = T - 1 then hex16 (2 ^ 64 - 1) ++ zeros48
    else hex16 ((i + 1) * 2 ^ 64 / T) ++ zeros48)

/-- Numeric lower bound of shard `i` of `T` on the leading-64-bit value of
a hash: `floor(i · 2^64 / T)`. -/
def shardStart64 (i T : Nat) : Nat :=
  i * 2 ^ 64 / T

/-- Membership of a leading-64-bit hash value `H` in shard `i` of `T`
(spec §4.4): at least the shard's start, and below the next shard's start,
except the last shard which extends to the inclusive maximum. -/
def inShard64 (H i T : Nat) : Prop :=
  shardStart64 i T ≤ H ∧
    (if i = T - 1 then H < 2 ^ 64 else H < shardStart64 (i + 1) T)

/-- Modelled from the spec: the shard filter of a sharded claim
(spec §4.5 restricts returned hashes to `[shardStart, shardEnd)`); absent
from src/, where claimCmd has no shard flags. -/
def shardPred (shard : Option (Nat × Nat)) (r : Row) : Bool :=
  match shard with
  | none => true
  | some (i, T) =>
      !decide (r.path_hash < (calculateShardRange i T).1) &&
        decide (r.path_hash < (calculateShardRange i T).2)

/-- The claim command over a store: claimCmd's query from src/main.go
(`WHERE treatment = ? AND done_at IS NULL AND path_hash > ? ORDER BY
path_hash LIMIT ?`) with the spec-modelled shard filter conjoined when a
`(shardIndex, totalShards)` pair is supplied. -/
def claimCmdModel (q : Store) (t cursor : String) (shard : Option (Nat × Nat))
    (n : Nat) : List Row :=
  ((q.filter fun r => claimPred t cursor r && shardPred shard r).mergeSort hashLe).take n

/-- The pending rows of a treatment in the order `ORDER BY path_hash`
returns them: the fixed point of a full cursor walk. -/
def sortedPending (q : Store) (t : String) : List Row :=
  (q.filter (pendingPred t)).mergeSort hashLe

/-- The cursor walk of spec §4.5: repeatedly claim a batch of up to `n`
rows, resuming each time from the `path_hash` of the last row returned,
until a batch comes back empty (or the fuel bound is reached). -/
def claimWalk (q : Store) (t : String) (n : Nat) : String → Nat → List Row
  | _, 0 => []
  | cursor, fuel + 1 =>
    match (claimQuery q t cursor n).getLast? with
    | none => []
    | some r => claimQuery q t cursor n ++ claimWalk q t n r.path_hash fuel

/-- The default cursor of claimCmd: the empty string, strictly below every
stored hash. -/
def emptyCursor : String := ""

/-- Sample treatment label used by the concrete witnesses. -/
def tLint : String := "lint"

def sampleRowA : Row :=
  { path := "/a", path_hash := "aa", content_hash := "ca", treatment := tLint,
    done_at := none, result := none, next_at := none }

def sampleRowB : Row :=
  { path := "/b", path_hash := "bb", content_hash := "cb", treatment := tLint,
    done_at := none, result := none, next_at := none }

def sampleRowC : Row :=
  { path := "/c", path_hash := "cc", content_hash := "cc", treatment := tLint,
    done_at := some 5, result := some tLint, next_at := none }

/-- A small concrete store (in non-hash order, with one completed row). -/
def sampleStore : Store := [sampleRowB, sampleRowA, sampleRowC]

/-- The enqueue UPSERT of src/main.go (`INSERT ... ON CONFLICT(path_hash,
treatment) DO UPDATE SET path = excluded.path, content_hash =
excluded.content_hash, done_at/result/next_at = IIF(queue.content_hash =
excluded.content_hash, old value, NULL)`): insert a fresh pending row, or
reconcile the existing row for the key, resetting completion state exactly
when the stored content hash differs from the newly computed one. -/
def upsertQueue (q : Store) (p ph ch t : String) : Store :=
  if q.any fun r => keyMatches r ph t then
    q.map fun r =>
      if keyMatches r ph t then
        { r with
          path := p
          content_hash := ch
          done_at := if r.content_hash == ch then r.done_at else none
          result := if r.content_hash == ch then r.result else none
          next_at := if r.content_hash == ch then r.next_at else none }
      else r
  else
    q ++ [{ path := p, path_hash := ph, content_hash := ch, treatment := t,
            done_at := none, result := none, next_at := none }]

/-- Fresh path, key hash and content hash used by the enqueue witnesses. -/
def pNew : String := "/c2"

def hashCC : String := "cc"

def chNew : String := "c9"

/-- One line of enqueue's stdin after path resolution: the resolved path
plus the computed content hash, or `none` when the line was skipped (empty
line, path resolution failure, or unreadable file). -/
structure EnqueueLine where
  path : String
  hashed : Option String
deriving DecidableEq

/-- doEnqueueCmd's loop (src/main.go): for every non-skipped input line,
upsert the row for `(pathHash path, treatment)` and increment the reported
count; skipped lines leave both store and count untouched.  The path-hash
function is passed in (sha256 hex in the source). -/
def doEnqueueCmd (hashPath : String → String) (t : String) :
    Store → List EnqueueLine → Store × Nat
  | q, [] => (q, 0)
  | q, l :: ls =>
    match l.hashed with
    | none => doEnqueueCmd hashPath t q ls
    | some ch =>
      let res := doEnqueueCmd hashPath t (upsertQueue q l.path (hashPath l.path) ch t) ls
      (res.1, res.2 + 1)

/-- A stand-in path-hash function for the concrete counterexample (the
input has a single distinct location, so injectivity is irrelevant). -/
def constHash : String → String := fun _ => hashCC

/-- The same readable location appearing twice in enqueue's input. -/
def dupLine : EnqueueLine := { path := pNew, hashed := some chNew }

/-- doneCmd's UPDATE (src/main.go): set `done_at` to the current instant
and `result` to the supplied value for the row keyed by
`(pathHash path, treatment)`; `next_at` is NULL when no revisit was given,
else `DATETIME('now', revisit)`.  SQLite's DATETIME is the external
parameter `sqlDateTime` (it yields `none` — SQL NULL — for a modifier it
does not recognize, never an error), and Go's clock and SQLite's clock are
modelled as the same instant `now`. -/
def doneUpdate (sqlDateTime : String → Option Int) (q : Store) (ph t : String)
    (now : Int) (res : String) (revisit : String) : Store :=
  q.map fun r =>
    if keyMatches r ph t then
      { r with
        done_at := some now
        result := some res
        next_at := if revisit == "" then none else sqlDateTime revisit }
    else r

/-- Sample done-command arguments for the witnesses. -/
def hashAA : String := "aa"

def resR1 : String := "r1"

def rev14 : String := "+14 days"

def revBogus : String := "bogus"

/-- A concrete stand-in for SQLite's DATETIME modifier evaluation: it
recognizes the single modifier `rev14` as 14 units past the instant 12. -/
def sqlDT14 : String → Option Int :=
  fun s => if s == rev14 then some 26 else none

/-- Pending rows of a treatment, as counted by statusCmd's
`SUM(CASE WHEN done_at IS NULL THEN 1 ELSE 0 END)`. -/
def pendingCount (q : Store) (t : String) : Nat :=
  (q.filter fun r => r.treatment == t && r.done_at.isNone).length

/-- Done rows of a treatment, as counted by statusCmd's
`SUM(CASE WHEN done_at IS NOT NULL THEN 1 ELSE 0 END)`. -/
def doneCount (q : Store) (t : String) : Nat :=
  (q.filter fun r => r.treatment == t && r.done_at.isSome).length

/-- Non-strict TEXT order used for `ORDER BY treatment`. -/
def strLe (a b : String) : Bool :=
  !decide (b < a)

/-- The label of statusCmd's aggregate row. -/
def totalLabel : String := "TOTAL"

/-- The rows statusCmd aggregates over: the whole table, or one treatment
when a filter is supplied (`WHERE treatment = ?`). -/
def statusBase (q : Store) (tf : Option String) : Store :=
  match tf with
  | some t => q.filter fun r => r.treatment == t
  | none => q

/-- The distinct treatments of the aggregated rows in ascending order
(`GROUP BY treatment` with `ORDER BY ... treatment`). -/
def statusTreatments (q : Store) (tf : Option String) : List String :=
  (((statusBase q tf).map fun r => r.treatment).mergeSort strLe).dedup

/-- statusCmd (src/main.go): one `(treatment, pending, done)` row per
matching treatment plus a trailing TOTAL row summing the per-treatment
counts.  When no row matches, the SQL produces a single
`(TOTAL, NULL, NULL)` row whose NULL counts fail the integer row scan and
are skipped, so the printed result set is empty. -/
def statusCmdModel (q : Store) (tf : Option String) : List (String × Nat × Nat) :=
  if statusTreatments q tf = [] then []
  else
    ((statusTreatments q tf).map fun t =>
        (t, pendingCount (statusBase q tf) t, doneCount (statusBase q tf) t)) ++
      [(totalLabel,
        ((statusTreatments q tf).map fun t => pendingCount (statusBase q tf) t).sum,
        ((statusTreatments q tf).map fun t => doneCount (statusBase q tf) t).sum)]

/-- A second treatment label and a pending row under it, mirroring the
spec's status example (1 pending + 1 done under lint, 1 pending under
other). -/
def tOther : String := "other"

def otherRow : Row :=
  { path := "/o", path_hash := "oo", content_hash := "co", treatment := tOther,
    done_at := none, result := none, next_at := none }

def statusStore : Store := [sampleRowA, sampleRowC, otherRow]

/-- A treatment label matching no row of the sample store. -/
def tMissing : String := "missing"

/-- resetCmd (src/main.go): `DELETE FROM queue WHERE treatment = ?`
together with the reported `RowsAffected` count. -/
def resetDelete (q : Store) (t : String) : Store × Nat :=
  (q.filter fun r => !(r.treatment == t),
    (q.filter fun r => r.treatment == t).length)

theorem hashLe_trans (a b c : Row) (h1 : hashLe a b) (h2 : hashLe b c) :
    hashLe a c := by
  simp only [hashLe, Bool.not_eq_true', decide_eq_false_iff_not, not_lt] at *
  exact le_trans h1 h2

theorem hashLe_total (a b : Row) : hashLe a b || hashLe b a := by
  simp only [hashLe, Bool.or_eq_true, Bool.not_eq_true', decide_eq_false_iff_not, not_lt]
  exact (le_total b.path_hash a.path_hash).symm

theorem hashLe_iff (a b : Row) : hashLe a b = true ↔ ¬ b.path_hash < a.path_hash := by
  simp [hashLe]

/-- The empty string is strictly below every nonempty string in SQLite's
TEXT order; this is why the default cursor of claimCmd excludes nothing. -/
theorem empty_lt_of_ne (s : String) (h : s ≠ "") : "" < s := by
  rw [String.lt_iff_toList_lt]
  cases hs : s.toList with
  | nil =>
    exact absurd (by cases s with | mk d => simpa [String.toList] using congrArg String.mk hs) h
  | cons a l =>
    simpa [String.toList_empty] using List.nil_lt_cons a l

/-- C1: the claim operation returns at most `n` rows, each pending, of the
requested treatment, with `path_hash` strictly above the cursor and (when a
shard pair is supplied) within the shard's `[start, end)` range, and the
batch is ordered ascending by `path_hash`. -/
theorem claim_batch_spec (q : Store) (t cursor : String)
    (shard : Option (Nat × Nat)) (n : Nat) :
    (claimCmdModel q t cursor shard n).length ≤ n ∧
    (∀ r ∈ claimCmdModel q t cursor shard n,
        r.done_at = none ∧ r.treatment = t ∧ cursor < r.path_hash ∧
        ∀ i T, shard = some (i, T) →
          (calculateShardRange i T).1 ≤ r.path_hash ∧
            r.path_hash < (calculateShardRange i T).2) ∧
    (claimCmdModel q t cursor shard n).Pairwise
      fun r s => ¬ s.path_hash < r.path_hash := by
  refine ⟨List.length_take_le n _, ?_, ?_⟩
  · intro r hr
    have hmem : r ∈ (q.filter fun r => claimPred t cursor r && shardPred shard r).mergeSort hashLe :=
      List.mem_of_mem_take hr
    rw [List.mem_mergeSort] at hmem
    have hpred := (List.mem_filter.mp hmem).2
    rw [Bool.and_eq_true] at hpred
    obtain ⟨hp, hs⟩ := hpred
    simp only [claimPred, pendingPred, Bool.and_eq_true, beq_iff_eq,
      Option.isNone_iff_eq_none, decide_eq_true_eq] at hp
    refine ⟨hp.1.2, hp.1.1, hp.2, ?_⟩
    intro i T hsh
    subst hsh
    simp only [shardPred, Bool.and_eq_true, Bool.not_eq_true',
      decide_eq_false_iff_not, decide_eq_true_eq] at hs
    exact ⟨not_lt.mp hs.1, hs.2⟩
  · have hsorted :=
      List.sorted_mergeSort hashLe_trans hashLe_total
        (q.filter fun r => claimPred t cursor r && shardPred shard r)
    exact List.Pairwise.sublist (List.take_sublist n _)
      (hsorted.imp fun h => (hashLe_iff _ _).mp h)

theorem shardStart64_mono (T : Nat) {i j : Nat} (h : i ≤ j) :
    shardStart64 i T ≤ shardStart64 j T :=
  Nat.div_le_div_right (Nat.mul_le_mul_right _ h)

/-- C3: for every `T ≥ 1` the shard ranges are contiguous
(`start_i = end_(i-1)`), shard 0 starts at the all-zero hash, the last
shard's upper bound is the inclusive maximum representable 64-bit prefix,
and every leading-64-bit hash value lies in exactly one shard. -/
theorem shard_ranges_partition (T : Nat) (hT : 1 ≤ T) :
    (calculateShardRange 0 T).1 =
      "0000000000000000000000000000000000000000000000000000000000000000" ∧
    (calculateShardRange (T - 1) T).2 =
      "ffffffffffffffff000000000000000000000000000000000000000000000000" ∧
    (∀ i, 0 < i → i < T →
      (calculateShardRange i T).1 = (calculateShardRange (i - 1) T).2) ∧
    (∀ H, H < 2 ^ 64 → ∃! i, i < T ∧ inShard64 H i T) := by
  refine ⟨?_, ?_, ?_, ?_⟩
  · show hex16 (0 * 2 ^ 64 / T) ++ zeros48 = _
    rw [Nat.zero_mul, Nat.zero_div]
    decide
  · show (if T - 1 = T - 1 then hex16 (2 ^ 64 - 1) ++ zeros48 else _) = _
    rw [if_pos rfl]
    decide
  · intro i h0 hiT
    have hne : i - 1 ≠ T - 1 := by omega
    have hsucc : i - 1 + 1 = i := by omega
    show hex16 (i * 2 ^ 64 / T) ++ zeros48 = _
    rw [show (calculateShardRange (i - 1) T).2 =
        hex16 ((i - 1 + 1) * 2 ^ 64 / T) ++ zeros48 from if_neg hne, hsucc]
  · intro H hH
    have hP0 : shardStart64 0 T ≤ H := by
      simp [shardStart64]
    set i0 := Nat.findGreatest (fun k => shardStart64 k T ≤ H) (T - 1) with hi0
    have hle : i0 ≤ T - 1 := Nat.findGreatest_le (P := fun k => shardStart64 k T ≤ H) (T - 1)
    have hspec : shardStart64 i0 T ≤ H :=
      Nat.findGreatest_spec (P := fun k => shardStart64 k T ≤ H) (m := 0) (Nat.zero_le _) hP0
    refine ⟨i0, ⟨by omega, hspec, ?_⟩, ?_⟩
    · by_cases hlast : i0 = T - 1
      · rw [if_pos hlast]
        exact hH
      · rw [if_neg hlast]
        have hnot : ¬ shardStart64 (i0 + 1) T ≤ H :=
          Nat.findGreatest_is_greatest (P := fun k => shardStart64 k T ≤ H)
            (Nat.lt_succ_self _) (by omega)
        exact not_le.mp hnot
    · rintro j ⟨hjT, hjlo, hjhi⟩
      have hjle : j ≤ i0 :=
        Nat.le_findGreatest (P := fun k => shardStart64 k T ≤ H) (by omega) hjlo
      by_contra hne
      have hjne : j ≠ T - 1 := by omega
      rw [if_neg hjne] at hjhi
      have hmono : shardStart64 (j + 1) T ≤ shardStart64 i0 T :=
        shardStart64_mono T (by omega)
      omega

theorem shard_ranges_partition_witness :
    1 ≤ 2 ∧
    ((calculateShardRange 0 2).1 =
      "0000000000000000000000000000000000000000000000000000000000000000" ∧
    (calculateShardRange (2 - 1) 2).2 =
      "ffffffffffffffff000000000000000000000000000000000000000000000000" ∧
    (∀ i, 0 < i → i < 2 →
      (calculateShardRange i 2).1 = (calculateShardRange (i - 1) 2).2) ∧
    (∀ H, H < 2 ^ 64 → ∃! i, i < 2 ∧ inShard64 H i 2)) :=
  ⟨by decide, shard_ranges_partition 2 (by decide)⟩

theorem pendingDistinct_of_keyUnique (q : Store) (t : String) (hu : KeyUnique q) :
    (q.filter (pendingPred t)).Pairwise fun r s => r.path_hash ≠ s.path_hash := by
  have hsub : (q.filter (pendingPred t)).Pairwise
      fun r s => ¬(r.path_hash = s.path_hash ∧ r.treatment = s.treatment) :=
    List.Pairwise.sublist (List.filter_sublist q) hu
  rw [List.Pairwise.and_mem] at hsub
  refine hsub.imp ?_
  rintro a b ⟨ha, hb, hR⟩ heq
  have hta : a.treatment = t := by
    have := (List.mem_filter.mp ha).2
    simp only [pendingPred, Bool.and_eq_true, beq_iff_eq] at this
    exact this.1
  have htb : b.treatment = t := by
    have := (List.mem_filter.mp hb).2
    simp only [pendingPred, Bool.and_eq_true, beq_iff_eq] at this
    exact this.1
  exact hR ⟨heq, hta.trans htb.symm⟩

theorem pairwise_lt_of_le_ne {L : List Row}
    (hle : L.Pairwise fun r s => hashLe r s = true)
    (hne : L.Pairwise fun r s => r.path_hash ≠ s.path_hash) :
    L.Pairwise rowLt := by
  refine (hle.and hne).imp ?_
  rintro a b ⟨h1, h2⟩
  rcases lt_or_gt_of_ne h2 with h | h
  · exact h
  · exact absurd h ((hashLe_iff a b).mp h1)

theorem sortedPending_pairwise_lt (q : Store) (t : String) (hu : KeyUnique q) :
    (sortedPending q t).Pairwise rowLt := by
  refine pairwise_lt_of_le_ne (List.sorted_mergeSort hashLe_trans hashLe_total _) ?_
  exact ((List.mergeSort_perm (q.filter (pendingPred t)) hashLe).pairwise_iff
    fun h => h.symm).mpr (pendingDistinct_of_keyUnique q t hu)

theorem filter_claimPred_eq (q : Store) (t cursor : String) :
    q.filter (claimPred t cursor) =
      (q.filter (pendingPred t)).filter fun r => decide (cursor < r.path_hash) := by
  rw [List.filter_filter]
  refine List.filter_congr ?_
  intro r _
  simp only [claimPred]
  exact Bool.and_comm _ _

/-- Over a fixed store the claim batch equals a prefix of the hash-sorted
pending rows above the cursor (the `LIMIT n` of the ordered scan). -/
theorem claimQuery_eq_take (q : Store) (t cursor : String) (n : Nat)
    (hu : KeyUnique q) :
    claimQuery q t cursor n =
      ((sortedPending q t).filter fun r => decide (cursor < r.path_hash)).take n := by
  unfold claimQuery
  congr 1
  have hperm :
      List.Perm ((q.filter (claimPred t cursor)).mergeSort hashLe)
        ((sortedPending q t).filter fun r => decide (cursor < r.path_hash)) := by
    refine (List.mergeSort_perm _ hashLe).trans ?_
    rw [filter_claimPred_eq]
    exact ((List.mergeSort_perm (q.filter (pendingPred t)) hashLe).filter _).symm
  have hA : ((q.filter (claimPred t cursor)).mergeSort hashLe).Pairwise rowLt := by
    refine pairwise_lt_of_le_ne (List.sorted_mergeSort hashLe_trans hashLe_total _) ?_
    refine ((List.mergeSort_perm (q.filter (claimPred t cursor)) hashLe).pairwise_iff
      fun h => h.symm).mpr ?_
    rw [filter_claimPred_eq]
    exact List.Pairwise.sublist (List.filter_sublist _)
      (pendingDistinct_of_keyUnique q t hu)
  have hB : ((sortedPending q t).filter fun r => decide (cursor < r.path_hash)).Pairwise
      rowLt :=
    List.Pairwise.sublist (List.filter_sublist _) (sortedPending_pairwise_lt q t hu)
  exact List.eq_of_perm_of_sorted hperm hA hB

/-- In a strictly hash-sorted list, filtering for hashes above the element
at position `j` drops exactly the first `j + 1` elements. -/
theorem filter_gt_getElem_of_pairwise :
    ∀ (L : List Row), L.Pairwise rowLt → ∀ j, (hj : j < L.length) →
      (L.filter fun r => decide (L[j].path_hash < r.path_hash)) = L.drop (j + 1) := by
  intro L
  induction L with
  | nil =>
    intro _ j hj
    simp at hj
  | cons a L ih =>
    intro hL j hj
    rw [List.pairwise_cons] at hL
    obtain ⟨ha, hL2⟩ := hL
    cases j with
    | zero =>
      simp only [List.getElem_cons_zero, List.drop_succ_cons, List.drop_zero]
      rw [List.filter_cons_of_neg (by simp)]
      refine List.filter_eq_self.mpr ?_
      intro b hb
      exact decide_eq_true (ha b hb)
    | succ j =>
      simp only [List.getElem_cons_succ, List.drop_succ_cons]
      have hjL : j < L.length := by
        simpa using hj
      rw [List.filter_cons_of_neg ?_, ih hL2 j hjL]
      have := ha (L[j]) (List.getElem_mem hjL)
      simp only [decide_eq_true_eq]
      exact lt_asymm this

/-- Filtering a strictly sorted list for hashes above the `j`-th element of
an upward-closed sub-filter drops exactly that sub-filter's first `j + 1`
elements. -/
theorem filter_gt_of_getElem_filter (S : List Row) (hS : S.Pairwise rowLt)
    (pc : Row → Bool) (j : Nat) (hj : j < (S.filter pc).length)
    (hmono : ∀ r s : Row, pc r = true → r.path_hash < s.path_hash → pc s = true) :
    (S.filter fun r => decide (((S.filter pc)[j]).path_hash < r.path_hash)) =
      (S.filter pc).drop (j + 1) := by
  have hFpair : (S.filter pc).Pairwise rowLt :=
    List.Pairwise.sublist (List.filter_sublist _) hS
  rw [← filter_gt_getElem_of_pairwise (S.filter pc) hFpair j hj, List.filter_filter]
  refine List.filter_congr ?_
  intro r _
  by_cases h : ((S.filter pc)[j]).path_hash < r.path_hash
  · have hpcj : pc ((S.filter pc)[j]) = true :=
      (List.mem_filter.mp (List.getElem_mem hj)).2
    simp [h, hmono _ _ hpcj h]
  · simp [h]

theorem claimWalk_eq_filter (q : Store) (t : String) (n : Nat)
    (hu : KeyUnique q) (hn : 0 < n) :
    ∀ (fuel : Nat) (cursor : String),
      ((sortedPending q t).filter fun r => decide (cursor < r.path_hash)).length ≤ fuel * n →
      claimWalk q t n cursor fuel =
        (sortedPending q t).filter fun r => decide (cursor < r.path_hash) := by
  intro fuel
  induction fuel with
  | zero =>
    intro cursor hlen
    have hnil : ((sortedPending q t).filter fun r => decide (cursor < r.path_hash)) = [] := by
      rw [← List.length_eq_zero]
      omega
    rw [hnil]
    rfl
  | succ fuel ih =>
    intro cursor hlen
    have hbatch := claimQuery_eq_take q t cursor n hu
    set S := sortedPending q t with hSdef
    set F := S.filter fun r => decide (cursor < r.path_hash) with hFdef
    by_cases hF : F = []
    · rw [claimWalk, hbatch, hF]
      simp
    · have hFlen : 0 < F.length := List.length_pos.mpr hF
      have hk1 : 1 ≤ min n F.length := Nat.le_min.mpr ⟨hn, hFlen⟩
      have hkF : min n F.length ≤ F.length := Nat.min_le_right _ _
      have hkn : min n F.length ≤ n := Nat.min_le_left _ _
      have hj : min n F.length - 1 < F.length := by omega
      have hlast : (F.take n).getLast? = some (F[min n F.length - 1]) := by
        rw [List.getLast?_eq_getElem?, List.length_take,
          List.getElem?_take_of_lt (by omega), List.getElem?_eq_getElem hj]
      have hSpair : S.Pairwise rowLt := sortedPending_pairwise_lt q t hu
      have hmono : ∀ r s : Row, (decide (cursor < r.path_hash)) = true →
          r.path_hash < s.path_hash → (decide (cursor < s.path_hash)) = true := by
        intro r s h1 h2
        simp only [decide_eq_true_eq] at h1 ⊢
        exact lt_trans h1 h2
      have hnext : (S.filter fun r =>
          decide ((F[min n F.length - 1]).path_hash < r.path_hash)) = F.drop (min n F.length) := by
        have h0 := filter_gt_of_getElem_filter S hSpair
          (fun r => decide (cursor < r.path_hash)) (min n F.length - 1) hj hmono
        rw [show min n F.length - 1 + 1 = min n F.length from by omega] at h0
        exact h0
      have hlen2 : ((S.filter fun r =>
          decide ((F[min n F.length - 1]).path_hash < r.path_hash)).length) ≤ fuel * n := by
        rw [hnext, List.length_drop]
        rw [Nat.succ_mul] at hlen
        omega
      rw [claimWalk, hbatch, hlast]
      show F.take n ++ claimWalk q t n ((F[min n F.length - 1]).path_hash) fuel = F
      rw [ih _ hlen2, hnext]
      rcases Nat.le_total n F.length with hcase | hcase
      · rw [min_eq_left hcase, List.take_append_drop]
      · rw [min_eq_right hcase, List.take_of_length_le hcase, List.drop_length,
          List.append_nil]

/-- C2: over a fixed store, the full cursor walk (restart each batch from
the last returned hash) yields exactly the hash-sorted pending rows of the
treatment: every pending row exactly once, in strictly increasing hash
order — no skips, no duplicates. -/
theorem cursor_walk_exhausts (q : Store) (t : String) (n fuel : Nat)
    (hu : KeyUnique q) (hn : 0 < n)
    (hnz : ∀ r ∈ q, r.done_at = none → r.treatment = t → r.path_hash ≠ emptyCursor)
    (hfuel : (q.filter (pendingPred t)).length ≤ fuel * n) :
    claimWalk q t n emptyCursor fuel = sortedPending q t ∧
    List.Perm (claimWalk q t n emptyCursor fuel) (q.filter (pendingPred t)) ∧
    (claimWalk q t n emptyCursor fuel).Pairwise rowLt := by
  have hfull : ((sortedPending q t).filter fun r => decide (emptyCursor < r.path_hash)) =
      sortedPending q t := by
    refine List.filter_eq_self.mpr ?_
    intro r hr
    have hrq : r ∈ q.filter (pendingPred t) := by
      rw [sortedPending, List.mem_mergeSort] at hr
      exact hr
    have hp := (List.mem_filter.mp hrq).2
    simp only [pendingPred, Bool.and_eq_true, beq_iff_eq,
      Option.isNone_iff_eq_none] at hp
    have hne2 := hnz r (List.mem_filter.mp hrq).1 hp.2 hp.1
    exact decide_eq_true (empty_lt_of_ne _ hne2)
  have hlen0 : ((sortedPending q t).filter fun r =>
      decide (emptyCursor < r.path_hash)).length ≤ fuel * n := by
    rw [hfull]
    simpa [sortedPending] using hfuel
  have hw := claimWalk_eq_filter q t n hu hn fuel emptyCursor hlen0
  rw [hfull] at hw
  refine ⟨hw, ?_, ?_⟩
  · rw [hw]
    exact List.mergeSort_perm _ _
  · rw [hw]
    exact sortedPending_pairwise_lt q t hu

theorem cursor_walk_exhausts_witness :
    KeyUnique sampleStore ∧ 0 < 1 ∧
    (∀ r ∈ sampleStore, r.done_at = none → r.treatment = tLint →
      r.path_hash ≠ emptyCursor) ∧
    (sampleStore.filter (pendingPred tLint)).length ≤ 3 * 1 ∧
    (claimWalk sampleStore tLint 1 emptyCursor 3 = sortedPending sampleStore tLint ∧
      List.Perm (claimWalk sampleStore tLint 1 emptyCursor 3)
        (sampleStore.filter (pendingPred tLint)) ∧
      (claimWalk sampleStore tLint 1 emptyCursor 3).Pairwise rowLt) :=
  ⟨by unfold KeyUnique; decide, by decide, by decide, by decide,
    cursor_walk_exhausts sampleStore tLint 1 3 (by unfold KeyUnique; decide)
      (by decide) (by decide) (by decide)⟩

/-- C4: re-enqueueing a (location, treatment) whose stored content hash
differs overwrites `content_hash`, nulls `done_at`/`result`/`next_at`, and
the row is returned by a subsequent full claim of that treatment. -/
theorem enqueue_reactivates_on_content_change (q : Store) (p ph ch t : String)
    (r : Row) (hr : r ∈ q) (hph : r.path_hash = ph) (ht : r.treatment = t)
    (hch : r.content_hash ≠ ch) (hph0 : ph ≠ emptyCursor) :
    ∃ r2 ∈ upsertQueue q p ph ch t,
      r2.path_hash = ph ∧ r2.treatment = t ∧ r2.content_hash = ch ∧
      r2.done_at = none ∧ r2.result = none ∧ r2.next_at = none ∧
      r2 ∈ claimQuery (upsertQueue q p ph ch t) t emptyCursor
        (upsertQueue q p ph ch t).length := by
  have hkm : keyMatches r ph t = true := by
    simp [keyMatches, hph, ht]
  have hany : (q.any fun s => keyMatches s ph t) = true :=
    List.any_eq_true.mpr ⟨r, hr, hkm⟩
  have hbeq : (r.content_hash == ch) = false := by
    simpa using hch
  refine ⟨{ r with
      path := p
      content_hash := ch
      done_at := none
      result := none
      next_at := none }, ?_, hph, ht, rfl, rfl, rfl, rfl, ?_⟩
  · rw [upsertQueue, if_pos hany]
    refine List.mem_map.mpr ⟨r, hr, ?_⟩
    rw [if_pos hkm, hbeq]
    rfl
  · have hmem : ({ r with
        path := p
        content_hash := ch
        done_at := none
        result := none
        next_at := none } : Row) ∈
        upsertQueue q p ph ch t := by
      rw [upsertQueue, if_pos hany]
      refine List.mem_map.mpr ⟨r, hr, ?_⟩
      rw [if_pos hkm, hbeq]
      rfl
    have hpred : claimPred t emptyCursor { r with
        path := p
        content_hash := ch
        done_at := none
        result := none
        next_at := none } = true := by
      simp only [claimPred, pendingPred, Bool.and_eq_true, beq_iff_eq,
        Option.isNone_iff_eq_none, decide_eq_true_eq]
      exact ⟨⟨ht, trivial⟩, hph ▸ empty_lt_of_ne ph hph0⟩
    have hfil : ({ r with
        path := p
        content_hash := ch
        done_at := none
        result := none
        next_at := none } : Row) ∈
        (upsertQueue q p ph ch t).filter (claimPred t emptyCursor) :=
      List.mem_filter.mpr ⟨hmem, hpred⟩
    rw [claimQuery, List.take_of_length_le]
    · exact List.mem_mergeSort.mpr hfil
    · rw [List.length_mergeSort]
      exact List.length_filter_le _ _

/-- C5: re-enqueueing a (location, treatment) whose stored content hash is
unchanged preserves the completion state: `done_at`, `result` and
`next_at` keep their previous values. -/
theorem enqueue_idempotent_when_unchanged (q : Store) (p ph ch t : String)
    (r : Row) (hr : r ∈ q) (hph : r.path_hash = ph) (ht : r.treatment = t)
    (hch : r.content_hash = ch) :
    ∃ r2 ∈ upsertQueue q p ph ch t,
      r2.path_hash = ph ∧ r2.treatment = t ∧ r2.content_hash = ch ∧
      r2.done_at = r.done_at ∧ r2.result = r.result ∧ r2.next_at = r.next_at := by
  have hkm : keyMatches r ph t = true := by
    simp [keyMatches, hph, ht]
  have hany : (q.any fun s => keyMatches s ph t) = true :=
    List.any_eq_true.mpr ⟨r, hr, hkm⟩
  have hbeq : (r.content_hash == ch) = true := by
    simpa using hch
  refine ⟨{ r with
      path := p
      content_hash := ch }, ?_, hph, ht, rfl, rfl, rfl, rfl⟩
  rw [upsertQueue, if_pos hany]
  refine List.mem_map.mpr ⟨r, hr, ?_⟩
  rw [if_pos hkm, hbeq]
  rfl

theorem enqueue_reactivates_witness :
    sampleRowC ∈ sampleStore ∧ sampleRowC.path_hash = hashCC ∧
    sampleRowC.treatment = tLint ∧ sampleRowC.content_hash ≠ chNew ∧
    hashCC ≠ emptyCursor ∧
    ∃ r2 ∈ upsertQueue sampleStore pNew hashCC chNew tLint,
      r2.path_hash = hashCC ∧ r2.treatment = tLint ∧ r2.content_hash = chNew ∧
      r2.done_at = none ∧ r2.result = none ∧ r2.next_at = none ∧
      r2 ∈ claimQuery (upsertQueue sampleStore pNew hashCC chNew tLint) tLint
        emptyCursor (upsertQueue sampleStore pNew hashCC chNew tLint).length :=
  ⟨by decide, by decide, by decide, by decide, by decide,
    enqueue_reactivates_on_content_change sampleStore pNew hashCC chNew tLint
      sampleRowC (by decide) (by decide) (by decide) (by decide) (by decide)⟩

theorem enqueue_idempotent_witness :
    sampleRowC ∈ sampleStore ∧ sampleRowC.path_hash = hashCC ∧
    sampleRowC.treatment = tLint ∧ sampleRowC.content_hash = hashCC ∧
    ∃ r2 ∈ upsertQueue sampleStore pNew hashCC hashCC tLint,
      r2.path_hash = hashCC ∧ r2.treatment = tLint ∧ r2.content_hash = hashCC ∧
      r2.done_at = sampleRowC.done_at ∧ r2.result = sampleRowC.result ∧
      r2.next_at = sampleRowC.next_at :=
  ⟨by decide, by decide, by decide, by decide,
    enqueue_idempotent_when_unchanged sampleStore pNew hashCC hashCC tLint
      sampleRowC (by decide) (by decide) (by decide) (by decide)⟩

theorem upsert_preserves_key (q : Store) (p ph2 ch t2 ph t : String)
    (h : ∃ r ∈ q, r.path_hash = ph ∧ r.treatment = t) :
    ∃ r ∈ upsertQueue q p ph2 ch t2, r.path_hash = ph ∧ r.treatment = t := by
  obtain ⟨r, hr, h1, h2⟩ := h
  rw [upsertQueue]
  by_cases hany : (q.any fun s => keyMatches s ph2 t2) = true
  · rw [if_pos hany]
    by_cases hk : keyMatches r ph2 t2 = true
    · refine ⟨{ r with
          path := p
          content_hash := ch
          done_at := if r.content_hash == ch then r.done_at else none
          result := if r.content_hash == ch then r.result else none
          next_at := if r.content_hash == ch then r.next_at else none }, ?_, h1, h2⟩
      refine List.mem_map.mpr ⟨r, hr, ?_⟩
      rw [if_pos hk]
    · refine ⟨r, ?_, h1, h2⟩
      refine List.mem_map.mpr ⟨r, hr, ?_⟩
      rw [if_neg hk]
  · rw [if_neg hany]
    exact ⟨r, List.mem_append_left _ hr, h1, h2⟩

theorem upsert_adds_key (q : Store) (p ph ch t : String) :
    ∃ r ∈ upsertQueue q p ph ch t, r.path_hash = ph ∧ r.treatment = t := by
  rw [upsertQueue]
  by_cases hany : (q.any fun s => keyMatches s ph t) = true
  · rw [if_pos hany]
    obtain ⟨r, hr, hk⟩ := List.any_eq_true.mp hany
    have hfields : r.path_hash = ph ∧ r.treatment = t := by
      simpa [keyMatches] using hk
    refine ⟨{ r with
        path := p
        content_hash := ch
        done_at := if r.content_hash == ch then r.done_at else none
        result := if r.content_hash == ch then r.result else none
        next_at := if r.content_hash == ch then r.next_at else none }, ?_, hfields.1, hfields.2⟩
    refine List.mem_map.mpr ⟨r, hr, ?_⟩
    rw [if_pos hk]
  · rw [if_neg hany]
    exact ⟨_, List.mem_append_right _ (List.mem_singleton_self _), rfl, rfl⟩

theorem doEnqueue_preserves_key (hashPath : String → String) (t : String) :
    ∀ (lines : List EnqueueLine) (q : Store) (ph t2 : String),
      (∃ r ∈ q, r.path_hash = ph ∧ r.treatment = t2) →
      ∃ r ∈ (doEnqueueCmd hashPath t q lines).1, r.path_hash = ph ∧ r.treatment = t2 := by
  intro lines
  induction lines with
  | nil =>
    intro q ph t2 h
    exact h
  | cons l ls ih =>
    intro q ph t2 h
    obtain ⟨p, hashed⟩ := l
    cases hashed with
    | none => exact ih q ph t2 h
    | some ch =>
      exact ih (upsertQueue q p (hashPath p) ch t) ph t2
        (upsert_preserves_key q p (hashPath p) ch t ph t2 h)

theorem doEnqueue_count (hashPath : String → String) (t : String) :
    ∀ (lines : List EnqueueLine) (q : Store),
      (doEnqueueCmd hashPath t q lines).2 =
        (lines.filter fun l => l.hashed.isSome).length := by
  intro lines
  induction lines with
  | nil =>
    intro q
    rfl
  | cons l ls ih =>
    intro q
    obtain ⟨p, hashed⟩ := l
    cases hashed with
    | none =>
      simpa [doEnqueueCmd] using ih q
    | some ch =>
      simp only [doEnqueueCmd, List.filter_cons]
      simp [ih]

/-- C6 counterexample: enqueueing the same location twice reports a count
of 2 while exactly one row is stored (one distinct location was stored or
reconciled), so the reported count does not equal the number of input
locations whose rows were stored or reconciled. -/
theorem enqueue_count_counterexample :
    (doEnqueueCmd constHash tLint [] [dupLine, dupLine]).2 = 2 ∧
    ((doEnqueueCmd constHash tLint [] [dupLine, dupLine]).1).length = 1 ∧
    ¬ (doEnqueueCmd constHash tLint [] [dupLine, dupLine]).2 =
        ((doEnqueueCmd constHash tLint [] [dupLine, dupLine]).1).length := by
  decide

/-- C6 (amended): the reported count equals the number of non-skipped
input lines — counting one per occurrence, not one per distinct location —
and every non-skipped line's `(pathHash path, treatment)` key has a row in
the final ledger (each counted line was stored or reconciled). -/
theorem enqueue_count_amended (hashPath : String → String) (t : String)
    (q : Store) (lines : List EnqueueLine) :
    (doEnqueueCmd hashPath t q lines).2 =
      (lines.filter fun l => l.hashed.isSome).length ∧
    ∀ l ∈ lines, l.hashed.isSome →
      ∃ r ∈ (doEnqueueCmd hashPath t q lines).1,
        r.path_hash = hashPath l.path ∧ r.treatment = t := by
  refine ⟨doEnqueue_count hashPath t lines q, ?_⟩
  induction lines generalizing q with
  | nil =>
    intro l hl
    simp at hl
  | cons l0 ls ih =>
    intro l hl hsome
    obtain ⟨p, hashed⟩ := l0
    cases hashed with
    | none =>
      rcases List.mem_cons.mp hl with rfl | hl2
      · simp at hsome
      · exact ih q l hl2 hsome
    | some ch =>
      rcases List.mem_cons.mp hl with rfl | hl2
      · exact doEnqueue_preserves_key hashPath t ls
          (upsertQueue q p (hashPath p) ch t) (hashPath p) t
          (upsert_adds_key q p (hashPath p) ch t)
      · exact ih (upsertQueue q p (hashPath p) ch t) l hl2 hsome

theorem enqueue_count_amended_witness :
    (doEnqueueCmd constHash tLint [] [dupLine, dupLine]).2 =
      ([dupLine, dupLine].filter fun l => l.hashed.isSome).length ∧
    ∀ l ∈ [dupLine, dupLine], l.hashed.isSome →
      ∃ r ∈ (doEnqueueCmd constHash tLint [] [dupLine, dupLine]).1,
        r.path_hash = constHash l.path ∧ r.treatment = tLint :=
  enqueue_count_amended constHash tLint [] [dupLine, dupLine]

/-- C7: done sets `done_at` to the current instant, `result` to the
supplied value, and `next_at` to `now + d` when a revisit duration `d` was
supplied (and recognized), else to NULL. -/
theorem done_sets_completion (sqlDateTime : String → Option Int) (q : Store)
    (ph t : String) (now : Int) (res revisit : String) (d : Int) (r : Row)
    (hr : r ∈ q) (hph : r.path_hash = ph) (ht : r.treatment = t)
    (hrev : revisit = "" ∨ sqlDateTime revisit = some (now + d)) :
    ∃ r2 ∈ doneUpdate sqlDateTime q ph t now res revisit,
      r2.path_hash = ph ∧ r2.treatment = t ∧
      r2.done_at = some now ∧ r2.result = some res ∧
      r2.next_at = (if revisit = "" then none else some (now + d)) := by
  have hkm : keyMatches r ph t = true := by
    simp [keyMatches, hph, ht]
  refine ⟨{ r with
      done_at := some now
      result := some res
      next_at := if revisit == "" then none else sqlDateTime revisit },
    ?_, hph, ht, rfl, rfl, ?_⟩
  · refine List.mem_map.mpr ⟨r, hr, ?_⟩
    rw [if_pos hkm]
  · by_cases h0 : revisit = ""
    · rw [if_pos h0]
      show (if revisit == "" then none else sqlDateTime revisit) = none
      simp [h0]
    · rw [if_neg h0]
      rcases hrev with h | h
      · exact absurd h h0
      · show (if revisit == "" then none else sqlDateTime revisit) = some (now + d)
        simp [h0, h]

/-- C10: a non-empty revisit string that SQLite's DATETIME does not
recognize still lets the update apply — the row is marked done with the
supplied result — and `next_at` is stored as NULL (DATETIME evaluates to
NULL rather than raising an error). -/
theorem done_invalid_revisit_yields_null (sqlDateTime : String → Option Int)
    (q : Store) (ph t : String) (now : Int) (res revisit : String) (r : Row)
    (hr : r ∈ q) (hph : r.path_hash = ph) (ht : r.treatment = t)
    (hne : revisit ≠ "") (hinv : sqlDateTime revisit = none) :
    ∃ r2 ∈ doneUpdate sqlDateTime q ph t now res revisit,
      r2.path_hash = ph ∧ r2.treatment = t ∧
      r2.done_at = some now ∧ r2.result = some res ∧ r2.next_at = none := by
  have hkm : keyMatches r ph t = true := by
    simp [keyMatches, hph, ht]
  refine ⟨{ r with
      done_at := some now
      result := some res
      next_at := if revisit == "" then none else sqlDateTime revisit },
    ?_, hph, ht, rfl, rfl, ?_⟩
  · refine List.mem_map.mpr ⟨r, hr, ?_⟩
    rw [if_pos hkm]
  · show (if revisit == "" then none else sqlDateTime revisit) = none
    simp [hne, hinv]

theorem done_sets_completion_witness :
    sampleRowA ∈ sampleStore ∧ sampleRowA.path_hash = hashAA ∧
    sampleRowA.treatment = tLint ∧
    (rev14 = "" ∨ sqlDT14 rev14 = some (12 + 14)) ∧
    ∃ r2 ∈ doneUpdate sqlDT14 sampleStore hashAA tLint 12 resR1 rev14,
      r2.path_hash = hashAA ∧ r2.treatment = tLint ∧
      r2.done_at = some 12 ∧ r2.result = some resR1 ∧
      r2.next_at = (if rev14 = "" then none else some (12 + 14)) :=
  ⟨by decide, by decide, by decide, by decide,
    done_sets_completion sqlDT14 sampleStore hashAA tLint 12 resR1 rev14 14
      sampleRowA (by decide) (by decide) (by decide) (by decide)⟩

theorem done_invalid_revisit_witness :
    sampleRowA ∈ sampleStore ∧ sampleRowA.path_hash = hashAA ∧
    sampleRowA.treatment = tLint ∧ revBogus ≠ "" ∧ sqlDT14 revBogus = none ∧
    ∃ r2 ∈ doneUpdate sqlDT14 sampleStore hashAA tLint 12 resR1 revBogus,
      r2.path_hash = hashAA ∧ r2.treatment = tLint ∧
      r2.done_at = some 12 ∧ r2.result = some resR1 ∧ r2.next_at = none :=
  ⟨by decide, by decide, by decide, by decide, by decide,
    done_invalid_revisit_yields_null sqlDT14 sampleStore hashAA tLint 12 resR1
      revBogus sampleRowA (by decide) (by decide) (by decide) (by decide)
      (by decide)⟩

theorem dedup_all_eq (l : List String) (t : String) (hne : l ≠ [])
    (hall : ∀ x ∈ l, x = t) : l.dedup = [t] := by
  induction l with
  | nil => exact absurd rfl hne
  | cons a l ih =>
    have ha : a = t := hall a (List.mem_cons_self _ _)
    subst ha
    cases l with
    | nil => simp
    | cons b l2 =>
      have hb : b = a := (hall b (by simp)).trans (hall a (List.mem_cons_self _ _)).symm
      have hdl : (b :: l2).dedup = [a] := by
        refine ih (by simp) ?_
        intro x hx
        exact hall x (List.mem_cons_of_mem a hx)
      rw [List.dedup_cons_of_mem, hdl]
      rw [hb]
      exact List.mem_cons_self _ _

theorem pendingCount_filter (q : Store) (t : String) :
    pendingCount (q.filter fun r => r.treatment == t) t = pendingCount q t := by
  unfold pendingCount
  rw [List.filter_filter]
  congr 1
  refine List.filter_congr ?_
  intro r _
  by_cases h : r.treatment == t <;> simp [h]

theorem doneCount_filter (q : Store) (t : String) :
    doneCount (q.filter fun r => r.treatment == t) t = doneCount q t := by
  unfold doneCount
  rw [List.filter_filter]
  congr 1
  refine List.filter_congr ?_
  intro r _
  by_cases h : r.treatment == t <;> simp [h]

/-- Helper: with a treatment filter matching at least one row, status
reports exactly one row for that treatment (its pending and done counts)
followed by one TOTAL row aggregating those counts, and no other
treatment. -/
theorem status_filtered_counts (q : Store) (t : String)
    (h : ∃ r ∈ q, r.treatment = t) :
    statusCmdModel q (some t) =
      [(t, pendingCount q t, doneCount q t),
        (totalLabel, pendingCount q t, doneCount q t)] := by
  obtain ⟨r, hr, hrt⟩ := h
  have hmem : r ∈ q.filter fun s => s.treatment == t :=
    List.mem_filter.mpr ⟨hr, by simp [hrt]⟩
  have hbase : statusBase q (some t) = q.filter fun s => s.treatment == t := rfl
  have hall : ∀ x ∈ ((statusBase q (some t)).map fun s => s.treatment).mergeSort strLe,
      x = t := by
    intro x hx
    rw [List.mem_mergeSort] at hx
    obtain ⟨s, hs, rfl⟩ := List.mem_map.mp hx
    rw [hbase] at hs
    simpa using (List.mem_filter.mp hs).2
  have hne : ((statusBase q (some t)).map fun s => s.treatment).mergeSort strLe ≠ [] := by
    have hmem2 : r.treatment ∈ (statusBase q (some t)).map fun s => s.treatment := by
      rw [hbase]
      exact List.mem_map_of_mem _ hmem
    intro hcon
    have h3 : r.treatment ∈
        ((statusBase q (some t)).map fun s => s.treatment).mergeSort strLe :=
      List.mem_mergeSort.mpr hmem2
    rw [hcon] at h3
    exact absurd h3 (List.not_mem_nil _)
  have hts : statusTreatments q (some t) = [t] :=
    dedup_all_eq _ t (by simpa [statusTreatments] using hne) hall
  have hts_ne : ¬ statusTreatments q (some t) = [] := by
    rw [hts]
    simp
  rw [statusCmdModel, if_neg hts_ne, hts, hbase]
  simp [pendingCount_filter, doneCount_filter]

theorem length_filter_not_add (q : Store) (p : Row → Bool) :
    (q.filter fun r => !(p r)).length + (q.filter p).length = q.length := by
  induction q with
  | nil => rfl
  | cons a l ih =>
    by_cases h : p a = true <;> simp [List.filter_cons, h] <;> omega

/-- C9: reset deletes exactly the rows of the given treatment — every row
of any other treatment survives, none of the treatment's rows survive —
and the reported count is exactly the number of rows deleted. -/
theorem reset_deletes_only_treatment (q : Store) (t : String) :
    (∀ r ∈ (resetDelete q t).1, r.treatment ≠ t) ∧
    (∀ r ∈ q, r.treatment ≠ t → r ∈ (resetDelete q t).1) ∧
    (∀ r ∈ q, r.treatment = t → r ∉ (resetDelete q t).1) ∧
    ((resetDelete q t).1).length + (resetDelete q t).2 = q.length := by
  refine ⟨?_, ?_, ?_, ?_⟩
  · intro r hr
    have := (List.mem_filter.mp hr).2
    simpa using this
  · intro r hr h
    exact List.mem_filter.mpr ⟨hr, by simpa using h⟩
  · intro r _ h hcon
    have := (List.mem_filter.mp hcon).2
    simp [h] at this
  · exact length_filter_not_add q fun r => r.treatment == t

theorem reset_deletes_only_treatment_witness :
    (∀ r ∈ (resetDelete statusStore tLint).1, r.treatment ≠ tLint) ∧
    (∀ r ∈ statusStore, r.treatment ≠ tLint → r ∈ (resetDelete statusStore tLint).1) ∧
    (∀ r ∈ statusStore, r.treatment = tLint → r ∉ (resetDelete statusStore tLint).1) ∧
    ((resetDelete statusStore tLint).1).length + (resetDelete statusStore tLint).2 =
      statusStore.length :=
  reset_deletes_only_treatment statusStore tLint

theorem claim_batch_spec_witness :
    (claimCmdModel sampleStore tLint emptyCursor none 2).length ≤ 2 ∧
    (∀ r ∈ claimCmdModel sampleStore tLint emptyCursor none 2,
        r.done_at = none ∧ r.treatment = tLint ∧ emptyCursor < r.path_hash ∧
        ∀ i T, (none : Option (Nat × Nat)) = some (i, T) →
          (calculateShardRange i T).1 ≤ r.path_hash ∧
            r.path_hash < (calculateShardRange i T).2) ∧
    (claimCmdModel sampleStore tLint emptyCursor none 2).Pairwise
      fun r s => ¬ s.path_hash < r.path_hash :=
  claim_batch_spec sampleStore tLint emptyCursor none 2

theorem sum_map_split (l : List String) (f g : String → Nat) :
    (l.map fun x => f x + g x).sum = (l.map f).sum + (l.map g).sum := by
  induction l with
  | nil => rfl
  | cons a l ih =>
    simp only [List.map_cons, List.sum_cons, ih]
    omega

theorem sum_indicator_one (ts : List String) (a : String) (h : ts.Nodup)
    (ha : a ∈ ts) :
    (ts.map fun t => if a == t then 1 else 0).sum = 1 := by
  induction ts with
  | nil => cases ha
  | cons b ts ih =>
    rw [List.nodup_cons] at h
    rcases List.mem_cons.mp ha with rfl | ha2
    · have hzero : (ts.map fun t => if a == t then (1 : Nat) else 0).sum = 0 := by
        refine List.sum_eq_zero ?_
        intro x hx
        obtain ⟨t, ht, rfl⟩ := List.mem_map.mp hx
        have hne : (a == t) = false :=
          beq_eq_false_iff_ne.mpr fun heq => h.1 (by rw [heq]; exact ht)
        simp [hne]
      rw [List.map_cons, List.sum_cons, if_pos (beq_self_eq_true a), hzero]
    · have hne : (a == b) = false :=
        beq_eq_false_iff_ne.mpr fun heq => h.1 (by rw [← heq]; exact ha2)
      rw [List.map_cons, List.sum_cons, if_neg (by simp [hne]), ih h.2 ha2]

/-- Double counting: summing a per-treatment filtered count over a
duplicate-free list of treatments covering every row gives the total
count — the content of the TOTAL row aggregating the per-treatment rows. -/
theorem sum_counts_partition (ts : List String) (hnodup : ts.Nodup) :
    ∀ (L : List Row) (p : Row → Bool), (∀ r ∈ L, r.treatment ∈ ts) →
      (ts.map fun t => (L.filter fun s => s.treatment == t && p s).length).sum
        = (L.filter p).length := by
  intro L
  induction L with
  | nil =>
    intro p _
    simp
  | cons r L ih =>
    intro p hcover
    have hcov2 : ∀ s ∈ L, s.treatment ∈ ts :=
      fun s hs => hcover s (List.mem_cons_of_mem _ hs)
    by_cases hp : p r = true
    · have hsplit : ∀ t ∈ ts,
          ((r :: L).filter fun s => s.treatment == t && p s).length
            = (if r.treatment == t then 1 else 0) +
                (L.filter fun s => s.treatment == t && p s).length := by
        intro t _
        by_cases ht : (r.treatment == t) = true
        · rw [List.filter_cons_of_pos (by simp [ht, hp])]
          simp [ht, Nat.add_comm]
        · rw [List.filter_cons_of_neg (by simp [ht])]
          simp [ht]
      rw [show (ts.map fun t =>
            ((r :: L).filter fun s => s.treatment == t && p s).length)
          = ts.map fun t => (if r.treatment == t then 1 else 0) +
              (L.filter fun s => s.treatment == t && p s).length
          from List.map_congr_left hsplit]
      rw [sum_map_split,
        sum_indicator_one ts r.treatment hnodup (hcover r (List.mem_cons_self _ _)),
        ih p hcov2, List.filter_cons_of_pos hp]
      simp [Nat.add_comm]
    · have hsplit : ∀ t ∈ ts,
          ((r :: L).filter fun s => s.treatment == t && p s).length
            = (L.filter fun s => s.treatment == t && p s).length := by
        intro t _
        rw [List.filter_cons_of_neg (by simp [hp])]
      rw [show (ts.map fun t =>
            ((r :: L).filter fun s => s.treatment == t && p s).length)
          = ts.map fun t => (L.filter fun s => s.treatment == t && p s).length
          from List.map_congr_left hsplit]
      rw [ih p hcov2, List.filter_cons_of_neg hp]

/-- Every aggregated row's treatment appears among the reported distinct
treatments. -/
theorem statusTreatments_mem (q : Store) (tf : Option String) (r : Row)
    (hr : r ∈ statusBase q tf) : r.treatment ∈ statusTreatments q tf := by
  unfold statusTreatments
  rw [List.mem_dedup, List.mem_mergeSort]
  exact List.mem_map_of_mem _ hr

/-- C8 counterexample: a treatment filter matching no row yields an empty
result set — in particular no overall TOTAL row is reported, contrary to
the claim's unconditional total row. -/
theorem status_zero_match_counterexample :
    statusCmdModel statusStore (some tMissing) = [] ∧
    ∀ e ∈ statusCmdModel statusStore (some tMissing), e.1 ≠ totalLabel := by
  have hbase : statusBase statusStore (some tMissing) = [] := by decide
  have hts : statusTreatments statusStore (some tMissing) = [] := by
    unfold statusTreatments
    rw [hbase]
    simp
  constructor
  · rw [statusCmdModel, if_pos hts]
  · intro e he
    rw [statusCmdModel, if_pos hts] at he
    exact absurd he (List.not_mem_nil _)

/-- C8 (amended): for every optional treatment filter — when no row
matches, the result set is empty (no total row); when at least one row
matches, the result is exactly one `(treatment, pending, done)` row per
matching treatment followed by one TOTAL row whose counts aggregate the
per-treatment counts (equalling the pending and done totals over all
matching rows); every matching row's treatment is reported; and with a
filter, every reported entry is the filtered treatment or TOTAL, with the
filtered treatment's counts taken over the whole table. -/
theorem status_reports_counts (q : Store) (tf : Option String) :
    (statusBase q tf = [] → statusCmdModel q tf = []) ∧
    (statusBase q tf ≠ [] →
      statusCmdModel q tf =
        ((statusTreatments q tf).map fun t =>
            (t, pendingCount (statusBase q tf) t, doneCount (statusBase q tf) t)) ++
          [(totalLabel,
            ((statusBase q tf).filter fun r => r.done_at.isNone).length,
            ((statusBase q tf).filter fun r => r.done_at.isSome).length)]) ∧
    (∀ r ∈ statusBase q tf, r.treatment ∈ statusTreatments q tf) ∧
    (∀ t2, tf = some t2 →
      ∀ e ∈ statusCmdModel q tf, e.1 = t2 ∨ e.1 = totalLabel) ∧
    (∀ t2, tf = some t2 → (∃ r ∈ q, r.treatment = t2) →
      statusCmdModel q tf =
        [(t2, pendingCount q t2, doneCount q t2),
          (totalLabel, pendingCount q t2, doneCount q t2)]) := by
  refine ⟨?_, ?_, ?_, ?_, ?_⟩
  · intro hbase
    have hts : statusTreatments q tf = [] := by
      unfold statusTreatments
      rw [hbase]
      simp
    rw [statusCmdModel, if_pos hts]
  · intro hbase
    obtain ⟨r, hr⟩ := List.exists_mem_of_ne_nil _ hbase
    have hts_ne : statusTreatments q tf ≠ [] :=
      List.ne_nil_of_mem (statusTreatments_mem q tf r hr)
    have hnodup : (statusTreatments q tf).Nodup :=
      List.nodup_dedup _
    have hcover : ∀ s ∈ statusBase q tf, s.treatment ∈ statusTreatments q tf :=
      fun s hs => statusTreatments_mem q tf s hs
    have h1 : ((statusTreatments q tf).map fun t =>
        pendingCount (statusBase q tf) t).sum
        = ((statusBase q tf).filter fun s => s.done_at.isNone).length :=
      sum_counts_partition (statusTreatments q tf) hnodup (statusBase q tf)
        (fun s => s.done_at.isNone) hcover
    have h2 : ((statusTreatments q tf).map fun t =>
        doneCount (statusBase q tf) t).sum
        = ((statusBase q tf).filter fun s => s.done_at.isSome).length :=
      sum_counts_partition (statusTreatments q tf) hnodup (statusBase q tf)
        (fun s => s.done_at.isSome) hcover
    rw [statusCmdModel, if_neg hts_ne, h1, h2]
  · exact fun r hr => statusTreatments_mem q tf r hr
  · rintro t2 rfl e he
    by_cases hts : statusTreatments q (some t2) = []
    · rw [statusCmdModel, if_pos hts] at he
      exact absurd he (List.not_mem_nil _)
    · rw [statusCmdModel, if_neg hts] at he
      rcases List.mem_append.mp he with h | h
      · obtain ⟨t, ht, rfl⟩ := List.mem_map.mp h
        left
        show t = t2
        unfold statusTreatments at ht
        rw [List.mem_dedup, List.mem_mergeSort] at ht
        obtain ⟨s, hs, rfl⟩ := List.mem_map.mp ht
        have hs2 : s ∈ q.filter fun x => x.treatment == t2 := hs
        simpa using (List.mem_filter.mp hs2).2
      · rw [List.mem_singleton] at h
        subst h
        right
        rfl
  · rintro t2 rfl hex
    exact status_filtered_counts q t2 hex

theorem status_reports_counts_witness :
    (statusBase statusStore (some tLint) = [] →
      statusCmdModel statusStore (some tLint) = []) ∧
    (statusBase statusStore (some tLint) ≠ [] →
      statusCmdModel statusStore (some tLint) =
        ((statusTreatments statusStore (some tLint)).map fun t =>
            (t, pendingCount (statusBase statusStore (some tLint)) t,
              doneCount (statusBase statusStore (some tLint)) t)) ++
          [(totalLabel,
            ((statusBase statusStore (some tLint)).filter
              fun r => r.done_at.isNone).length,
            ((statusBase statusStore (some tLint)).filter
              fun r => r.done_at.isSome).length)]) ∧
    (∀ r ∈ statusBase statusStore (some tLint),
      r.treatment ∈ statusTreatments statusStore (some tLint)) ∧
    (∀ t2, (some tLint : Option String) = some t2 →
      ∀ e ∈ statusCmdModel statusStore (some tLint),
        e.1 = t2 ∨ e.1 = totalLabel) ∧
    (∀ t2, (some tLint : Option String) = some t2 →
      (∃ r ∈ statusStore, r.treatment = t2) →
      statusCmdModel statusStore (some tLint) =
        [(t2, pendingCount statusStore t2, doneCount statusStore t2),
          (totalLabel, pendingCount statusStore t2, doneCount statusStore t2)]) :=
  status_reports_counts statusStore (some tLint)
